import Mathlib

/-!
Verification of the `cpp_sandbox` teaching examples

A shallow embedding in Lean 4 of the behaviourally relevant parts of the
repository's C++ sources:

* `src/constexpr_map.cc` — the fixed lookup table `Map` and its `at` lookup;
* `src/iterators.cc` — the heap-owning `DynamicArray` container (its
  constructors, assignment operators, destructor and bounds-checked
  `operator[]`) together with its random-access `iterator`;
* `src/numeric.cc` — reductions and prefix sums (`accumulate`, `reduce`,
  `inclusive_scan`, the closed-form `sum_gauss` lambda);
* `src/algorithm.cc` — the `unique` demonstration (consecutive
  deduplication of a vector in which every value is pushed twice).

Machine integers are modelled as `Int`/`Nat` with the C++ integral
conversions made explicit where they matter; fallible operations return
`Except`; the heap of `DynamicArray` is modelled as an explicit memory
state so that allocation, deallocation, double-free and dangling pointers
are observable.
-/

namespace CppSandbox

/-! Section: `src/constexpr_map.cc` — the fixed lookup table

```cpp
constexpr ValueType at(const KeyType &key) const {
    const auto it = std::find_if(data_.cbegin(), data_.cend(),
                                 [&key](const auto &kv)
                                 { return kv.first == key; });
    if (it == data_.end())
        throw(std::range_error(std::format("{} not found in map.\n", key)));
    return it->second;
}
```

The table's `data_` is an ordered sequence of (key, value) pairs, modelled
as a `List (K × V)`.  `find_if` is a left-to-right scan for the first
entry whose key compares equal; a miss throws a `range_error` whose
message carries the offending key. -/

/-- The message of the `range_error` thrown on a lookup miss:
`std::format("{} not found in map.\n", key)`. -/
def notFoundMsg [ToString K] (key : K) : String :=
  toString key ++ " not found in map.\n"

/-- The C++ `Map::at`: scan the entries in insertion order, return the value of the
first entry whose key equals `key`; if no entry matches, fail with the
"not found" message carrying the key. -/
def Map.at [DecidableEq K] [ToString K] (data : List (K × V)) (key : K) :
    Except String V :=
  match data with
  | [] => .error (notFoundMsg key)
  | kv :: rest => if kv.1 = key then .ok kv.2 else Map.at rest key

/-- The concrete table of `constexpr_map.cc`'s `main`:
`{{"red", 1}, {"blue", 2}, {"green", 3}}`. -/
def colorData : List (String × Int) := [("red", 1), ("blue", 2), ("green", 3)]

/-! Section: `src/iterators.cc` — `DynamicArray`

```cpp
T &operator[](int idx) {
    if (idx >= size_)
        throw std::range_error(std::format(
            "Invalid index {} for DynamicArray of size {}\n", idx, size_));
    return values_[idx];
}
```

`idx` has type `int` (32-bit, signed) and `size_` has type `std::size_t`
(64-bit, unsigned); the comparison `idx >= size_` converts `idx` to
`std::size_t` first (modulo 2^64).  We model the buffer's current contents
as a list (its length being `size_`) and make that conversion explicit. -/

/-- The usual arithmetic conversion of a signed value to `std::size_t`:
reduction modulo `2^64 = 18446744073709551616`. -/
def toSizeT (idx : Int) : Nat := (idx % 18446744073709551616).toNat

/-- Predicate: `idx` is representable in a 32-bit `int`:
`-2^31 ≤ idx < 2^31`. -/
def IntRange (idx : Int) : Prop := -2147483648 ≤ idx ∧ idx < 2147483648

instance (idx : Int) : Decidable (IntRange idx) := by
  unfold IntRange; infer_instance

/-- The message of the `range_error` thrown on an out-of-bounds access. -/
def invalidIndexMsg (idx : Int) (size : Nat) : String :=
  "Invalid index " ++ toString idx ++ " for DynamicArray of size " ++
    toString size ++ "\n"

/-- The C++ `DynamicArray::operator[]`: throw a `range_error` when
`(size_t) idx >= size_`, otherwise return element `idx` of the buffer. -/
def arrayIndex (buf : List T) (idx : Int) : Except String T :=
  if h : buf.length ≤ toSizeT idx then
    .error (invalidIndexMsg idx buf.length)
  else
    .ok (buf.get ⟨toSizeT idx, by omega⟩)

/-! Section: The heap model for `DynamicArray`'s special member functions

`DynamicArray` owns a buffer obtained from `new T[...]`; its copy/move
constructors, assignment operators and destructor manage that buffer with
explicit `new`/`delete`.  We model the heap as an explicit state:

* a block is `(address, cells)`; a cell is `Option T`, `none` standing for
  an indeterminate value (`new T[n]` without braces default-initializes,
  `new T[n]{}` value-initializes every cell to zero, modelled as
  `some default`);
* `delete[] p` / `delete p` on a live block deallocates it and records the
  address in `freed`; on a null pointer it is a no-op; on a pointer that is
  no longer live it sets the `doubleFree` flag (undefined behaviour in C++);
* an object of the class is `⟨size_, values_⟩`, `values_ = none` standing
  for `nullptr`. -/

/-- The heap state: live blocks, the addresses freed so far, the next fresh
address, and whether a pointer was ever released twice. -/
structure Mem (T : Type) where
  heap : List (Nat × List (Option T))
  freed : List Nat
  next : Nat
  doubleFree : Bool

/-- The empty heap. -/
def Mem.empty : Mem T := ⟨[], [], 0, false⟩

/-- Contents of the live block at address `a`, if any. -/
def lookupBlock (heap : List (Nat × List (Option T))) (a : Nat) :
    Option (List (Option T)) :=
  match heap with
  | [] => none
  | (b, c) :: rest => if b = a then some c else lookupBlock rest a

/-- Drop the block at address `a`. -/
def removeBlock (heap : List (Nat × List (Option T))) (a : Nat) :
    List (Nat × List (Option T)) :=
  match heap with
  | [] => []
  | (b, c) :: rest =>
      if b = a then removeBlock rest a else (b, c) :: removeBlock rest a

/-- Replace the contents of the block at address `a`. -/
def writeBlock (heap : List (Nat × List (Option T))) (a : Nat)
    (c' : List (Option T)) : List (Nat × List (Option T)) :=
  match heap with
  | [] => []
  | (b, c) :: rest =>
      if b = a then (b, c') :: rest else (b, c) :: writeBlock rest a c'

/-- Store `v` into cell `i` of the block at address `a`. -/
def writeCell (heap : List (Nat × List (Option T))) (a : Nat) (i : Nat)
    (v : T) : List (Nat × List (Option T)) :=
  match heap with
  | [] => []
  | (b, c) :: rest =>
      if b = a then (b, c.set i (some v)) :: rest
      else (b, c) :: writeCell rest a i v

/-- The C++ `new T[n]`: a fresh block at the next address. -/
def Mem.alloc (m : Mem T) (c : List (Option T)) : Mem T × Nat :=
  (⟨(m.next, c) :: m.heap, m.freed, m.next + 1, m.doubleFree⟩, m.next)

/-- The C++ `delete[] p` (and `delete p`): no-op on `nullptr`; deallocates a live
block; flags a double free when `p` is dangling. -/
def Mem.free (m : Mem T) (p : Option Nat) : Mem T :=
  match p with
  | none => m
  | some a =>
      match lookupBlock m.heap a with
      | some _ => ⟨removeBlock m.heap a, a :: m.freed, m.next, m.doubleFree⟩
      | none => { m with doubleFree := true }

/-- A `DynamicArray` object: its `size_` and `values_` members
(`values_ = none` is `nullptr`). -/
structure DynamicArray where
  size : Nat
  values : Option Nat
deriving DecidableEq

/-- Read `n` cells starting at the block `p` points to (junk when the
pointer is null or dangling, or the block is shorter). -/
def readBlock (heap : List (Nat × List (Option T))) (p : Option Nat)
    (n : Nat) : List (Option T) :=
  match p with
  | none => List.replicate n none
  | some a =>
      match lookupBlock heap a with
      | none => List.replicate n none
      | some c => c.take n ++ List.replicate (n - c.length) none

/-- The full contents of the buffer an object owns, if live. -/
def contentsOf (m : Mem T) (arr : DynamicArray) : Option (List (Option T)) :=
  match arr.values with
  | none => none
  | some a => lookupBlock m.heap a

/-- Overwrite the whole buffer an object owns. -/
def writeArr (m : Mem T) (arr : DynamicArray) (c : List (Option T)) : Mem T :=
  match arr.values with
  | none => m
  | some a => { m with heap := writeBlock m.heap a c }

/-- The C++ `arr[i] = v`: store through `operator[]`'s reference. -/
def writeElem (m : Mem T) (arr : DynamicArray) (i : Nat) (v : T) : Mem T :=
  match arr.values with
  | none => m
  | some a => { m with heap := writeCell m.heap a i v }

/-- The C++ `DynamicArray(std::size_t size) : size_(size), values_(new T[size]{})`. -/
def ctorSize [Inhabited T] (m : Mem T) (n : Nat) : Mem T × DynamicArray :=
  let (m1, a) := m.alloc (List.replicate n (some (default : T)))
  (m1, ⟨n, some a⟩)

/-- The C++ `DynamicArray(std::initializer_list<T> l)`: delegates to
`DynamicArray(l.size())`, then `std::copy(l.begin(), l.end(), values_)`. -/
def ctorList [Inhabited T] (m : Mem T) (l : List T) : Mem T × DynamicArray :=
  let (m1, arr) := ctorSize m l.length
  (writeArr m1 arr (l.map some), arr)

/-- The C++ `DynamicArray(const DynamicArray &other)`: delegates to
`DynamicArray(other.size_)`, then
`std::copy(other.values_, other.values_ + other.size_, values_)`. -/
def copyCtor [Inhabited T] (m : Mem T) (other : DynamicArray) :
    Mem T × DynamicArray :=
  let (m1, arr) := ctorSize m other.size
  (writeArr m1 arr (readBlock m1.heap other.values other.size), arr)

/-- The C++ `DynamicArray(DynamicArray &&other)`: delegates to
`DynamicArray(other.size_)` and copies the elements, then
`other.size_ = 0; delete[] other.values_; other.values_ = nullptr;`.
Returns the new object and the moved-from source's final state. -/
def moveCtor [Inhabited T] (m : Mem T) (other : DynamicArray) :
    Mem T × DynamicArray × DynamicArray :=
  let (m1, arr) := ctorSize m other.size
  let m2 := writeArr m1 arr (readBlock m1.heap other.values other.size)
  let m3 := m2.free other.values
  (m3, arr, ⟨0, none⟩)

/-- The C++ `operator=(const DynamicArray &other)` for distinct objects
(`this != &other`; the aliasing case is `selfCopyAssign`):
`size_ = other.size_; delete[] values_; values_ = new T[size_];
std::copy(other.values_, other.values_ + other.size_, values_);`.
Note `new T[size_]` (no braces) default-initializes: indeterminate cells. -/
def copyAssign [Inhabited T] (m : Mem T) (dest src : DynamicArray) :
    Mem T × DynamicArray :=
  let n := src.size
  let m1 := m.free dest.values
  let (m2, a) := m1.alloc (List.replicate n none)
  let m3 := writeArr m2 ⟨n, some a⟩ (readBlock m2.heap src.values n)
  (m3, ⟨n, some a⟩)

/-- The C++ `operator=(const DynamicArray &)` replayed with `this == &other`
(self-assignment `a = a`): `size_ = other.size_` is the identity;
`delete[] values_` frees the only buffer; `values_ = new T[size_]` makes
`other.values_` this same fresh pointer, so the final `std::copy` copies
the indeterminate fresh buffer onto itself. -/
def selfCopyAssign [Inhabited T] (m : Mem T) (arr : DynamicArray) :
    Mem T × DynamicArray :=
  let n := arr.size
  let m1 := m.free arr.values
  let (m2, a) := m1.alloc (List.replicate n none)
  let m3 := writeArr m2 ⟨n, some a⟩ (readBlock m2.heap (some a) n)
  (m3, ⟨n, some a⟩)

/-- The C++ `operator=(DynamicArray &&other)` for distinct objects:
`size_ = other.size_; delete values_; values_ = new T[size_];
std::copy(other.values_, other.values_ + other.size_, values_);
other.size_ = 0; delete other.values_;` — the scalar `delete` of an array
pointer is modelled as a deallocation, and `other.values_` is **not**
nulled.  Returns the new memory, the destination and the moved-from
source's final state. -/
def moveAssign [Inhabited T] (m : Mem T) (dest src : DynamicArray) :
    Mem T × DynamicArray × DynamicArray :=
  let n := src.size
  let m1 := m.free dest.values
  let (m2, a) := m1.alloc (List.replicate n none)
  let m3 := writeArr m2 ⟨n, some a⟩ (readBlock m2.heap src.values n)
  let m4 := m3.free src.values
  (m4, ⟨n, some a⟩, ⟨0, src.values⟩)

/-- The C++ `~DynamicArray()`: `if (values_ != nullptr) { delete[] values_; }`. -/
def dtor (m : Mem T) (arr : DynamicArray) : Mem T :=
  match arr.values with
  | none => m
  | some a => m.free (some a)

/-- Every live block's address is below the allocation counter. -/
def MemInv (m : Mem T) : Prop := ∀ e ∈ m.heap, e.1 < m.next

/-- The object owns a live block of exactly `size_` cells. -/
def WfArr (m : Mem T) (arr : DynamicArray) : Prop :=
  ∃ a c, arr.values = some a ∧ lookupBlock m.heap a = some c ∧
    c.length = arr.size

/-! Subsection: The concrete scenario of the move-assignment defect

`DynamicArray<int> a{1,2,3,4,5}; DynamicArray<int> b(1); b = std::move(a);`
then `a` is destroyed.  Address 0 is `a`'s buffer, address 1 is `b`'s
original buffer, address 2 is the buffer `b` re-acquires inside
`operator=(DynamicArray &&)`. -/

/-- Heap and objects after `DynamicArray<int> a{1,2,3,4,5};
DynamicArray<int> b(1);` — result `(memory, a, b)`. -/
def exInit : Mem Int × DynamicArray × DynamicArray :=
  let p1 := ctorList (Mem.empty : Mem Int) [1, 2, 3, 4, 5]
  let p2 := ctorSize p1.1 1
  (p2.1, p1.2, p2.2)

/-- State after `b = std::move(a)` — result
`(memory, b after, a after)`. -/
def exMoveAssigned : Mem Int × DynamicArray × DynamicArray :=
  moveAssign exInit.1 exInit.2.2 exInit.2.1

/-- State after the moved-from `a` is then destroyed. -/
def exAfterDtorA : Mem Int := dtor exMoveAssigned.1 exMoveAssigned.2.2

/-- The C++ `DynamicArray<int> a{1, 2, 3};` in an empty heap. -/
def exArr123 : Mem Int × DynamicArray :=
  ctorList (Mem.empty : Mem Int) [1, 2, 3]

/-- The C++ `a = a;` (self copy-assignment) on it. -/
def exSelfAssigned : Mem Int × DynamicArray :=
  selfCopyAssign exArr123.1 exArr123.2

/-! Section: `DynamicArray::iterator` — the random-access cursor

The iterator wraps a raw pointer `ptr_`; pointers into the buffer are
modelled as integer element addresses, and a read through the pointer as
applying a memory view `mem : Int → T`.

```cpp
reference operator*() { return *ptr_; }
reference operator[](const difference_type &diff) const { return ptr_[diff]; }
iterator &operator++() { ptr_++; return *this; }
iterator &operator--() { ptr_--; return *this; }
friend difference_type operator-(const iterator &lhs, const iterator &rhs)
{ return static_cast<difference_type>(lhs.ptr_ - rhs.ptr_); }
friend iterator operator+(const iterator &it, const difference_type &diff)
{ return iterator(it.ptr_ + diff); }
```
with `begin() { return iterator(values_); }` and
`end() { return iterator(values_ + size_); }`. -/

/-- The C++ `DynamicArray<T>::iterator`: a wrapped raw pointer. -/
structure ArrayIterator where
  ptr : Int
deriving DecidableEq

/-- The C++ `operator*`: read through the pointer. -/
def ArrayIterator.deref (mem : Int → T) (it : ArrayIterator) : T := mem it.ptr

/-- The C++ `operator[]`: `ptr_[diff]`, i.e. a read at `ptr_ + diff`. -/
def ArrayIterator.subscript (mem : Int → T) (it : ArrayIterator)
    (diff : Int) : T :=
  mem (it.ptr + diff)

/-- The C++ `operator--` (pre-decrement). -/
def ArrayIterator.dec (it : ArrayIterator) : ArrayIterator := ⟨it.ptr - 1⟩

/-- The C++ `operator-(iterator, iterator)`: signed element distance. -/
def ArrayIterator.diff (lhs rhs : ArrayIterator) : Int := lhs.ptr - rhs.ptr

/-- The C++ `operator+(iterator, difference_type)`. -/
def ArrayIterator.add (it : ArrayIterator) (d : Int) : ArrayIterator :=
  ⟨it.ptr + d⟩

/-- The C++ `DynamicArray::begin()`: `iterator(values_)`, for a buffer whose first
element lives at address `base`. -/
def beginIt (base : Int) : ArrayIterator := ⟨base⟩

/-- The C++ `DynamicArray::end()`: `iterator(values_ + size_)`. -/
def endIt (base : Int) (size : Nat) : ArrayIterator := ⟨base + size⟩

/-! Section: `src/numeric.cc` — reductions and prefix sums

`main` builds `v1 = {1,2,3,4,5}` (`std::iota` from 1), sums it with both
`std::accumulate` and `std::reduce`, checks the closed-form `sum_gauss`
lambda, and computes its prefix sums with both `std::partial_sum` and
`std::inclusive_scan`. -/

/-- The C++ `std::accumulate(first, last, init, op)`: the sequential left fold. -/
def accumulate (op : α → α → α) (init : α) (l : List α) : α := l.foldl op init

/-- One pass of order-preserving pairwise combination: adjacent pairs are
combined, a trailing odd element is kept. -/
def reducePairs (op : α → α → α) : List α → List α
  | [] => []
  | [a] => [a]
  | a :: b :: rest => op a b :: reducePairs op rest

/-- Performs `n` passes of pairwise combination. -/
def reduceRounds (op : α → α → α) : Nat → List α → List α
  | 0, l => l
  | n + 1, l => reduceRounds op n (reducePairs op l)

/-- The C++ `std::reduce(first, last, init, op)`: a `GENERALIZED_SUM` of `init`
and the elements, i.e. some reassociation of their combination.  Modelled
as the canonical order-preserving balanced regrouping: combine adjacent
pairs of `init :: elements` until one value remains (`l.length` passes
always suffice). -/
def reduce (op : α → α → α) (init : α) (l : List α) : α :=
  match reduceRounds op l.length (init :: l) with
  | [] => init
  | x :: _ => x

/-- The `sum_gauss` lambda of `numeric.cc`:
`(last - first + 1) / step * (last + first) / 2` in C++ `int` arithmetic
(at the call site every division is exact and nonnegative, where all the
integer division conventions agree). -/
def sum_gauss (first last step : Int) : Int :=
  (last - first + 1) / step * (last + first) / 2

/-- The C++ `v1` of `numeric.cc`'s `main`: five `int`s filled by `std::iota`
starting from 1. -/
def v1 : List Int := [1, 2, 3, 4, 5]

/-- The running pass of `inclusive_scan`: emit `op acc x` for each element,
threading the accumulator. -/
def scanGo (op : α → α → α) (acc : α) : List α → List α
  | [] => []
  | x :: xs => op acc x :: scanGo op (op acc x) xs

/-- The C++ `std::inclusive_scan` / `std::partial_sum`: output position `i` holds
the combination of input elements `0..i` inclusive. -/
def inclusive_scan (op : α → α → α) : List α → List α
  | [] => []
  | x :: xs => x :: scanGo op x xs

/-! Section: `src/algorithm.cc` — `unique()`

```cpp
size_t n = 20;
std::vector<int> v1;
for (size_t i = 0; i < n; i++) { v1.push_back(i); v1.push_back(i); }
std::cout << "No. even: " << std::count_if(v1.cbegin(), v1.cend(), is_even) << "\n";
v1.erase(std::unique(v1.begin(), v1.end()), v1.end());
std::cout << "No. even: " << std::count_if(v1.cbegin(), v1.cend(), is_even) << "\n";
```

`std::unique` moves the first element of every run of consecutive equal
elements to the front and returns the boundary; `erase` truncates there.
We model the composite directly as the collapsed list. -/

/-- The C++ `std::unique` + `erase`: the list with every run of consecutive equal
elements collapsed to a single element. -/
def dedupConsec [DecidableEq α] : List α → List α
  | [] => []
  | [a] => [a]
  | a :: b :: rest =>
      if a = b then dedupConsec (b :: rest) else a :: dedupConsec (b :: rest)

/-- The build loop of `unique()` generalized: push each of
`s, s+1, ..., s+n-1` twice, in order. -/
def pairDupFrom : Nat → Nat → List Nat
  | _, 0 => []
  | s, n + 1 => s :: s :: pairDupFrom (s + 1) n

/-- The `v1` of `unique()` for a count `n`: each value `0..n-1` pushed
twice (the source uses `n = 20`). -/
def pairDup (n : Nat) : List Nat := pairDupFrom 0 n

/-- The C++ `std::count_if`. -/
def count_if (p : α → Bool) (l : List α) : Nat := (l.filter p).length

/-- The `is_even` lambda of `algorithm.cc`: `return e % 2;` — as a boolean
this is in fact *true for odd* `e`, but it still names a parity class. -/
def is_even (e : Nat) : Bool := e % 2 != 0

/-! Subsection: Lemmas about `Map.at` -/

/-- Entries whose keys all differ from `key` are skipped by the scan. -/
theorem mapAt_append_of_no_match [DecidableEq K] [ToString K]
    (pre rest : List (K × V)) (key : K) (h : ∀ p ∈ pre, p.1 ≠ key) :
    Map.at (pre ++ rest) key = Map.at rest key := by
  induction pre with
  | nil => rfl
  | cons kv tl ih =>
      have hkv : kv.1 ≠ key := h kv (by simp)
      simp only [List.cons_append, Map.at, if_neg hkv]
      exact ih fun p hp => h p (by simp [hp])

/-- When no entry's key matches, the scan falls off the end and the
"not found" error is raised. -/
theorem mapAt_eq_error_of_no_match [DecidableEq K] [ToString K]
    (data : List (K × V)) (key : K) (h : ∀ p ∈ data, p.1 ≠ key) :
    Map.at data key = .error (notFoundMsg key) := by
  induction data with
  | nil => rfl
  | cons kv tl ih =>
      simp only [Map.at, if_neg (h kv (by simp))]
      exact ih fun p hp => h p (by simp [hp])

/-- C1: `Map::at` scans the entries in insertion order and returns the value
of the first entry whose key equals the given key; if no entry matches it
raises a "key not found" error carrying the offending key.  For the table
built from `{"red":1,"blue":2,"green":3}`: `at("red") == 1`,
`at("blue") == 2`, and `at("purple")` fails with the lookup-miss error. -/
theorem c1_map_at_scans_in_insertion_order [DecidableEq K] [ToString K]
    (data : List (K × V)) (key : K) :
    (∀ pre kv post, data = pre ++ kv :: post → kv.1 = key →
        (∀ p ∈ pre, p.1 ≠ key) → Map.at data key = .ok kv.2) ∧
    ((∀ p ∈ data, p.1 ≠ key) →
        Map.at data key = .error (notFoundMsg key)) ∧
    Map.at colorData "red" = .ok 1 ∧
    Map.at colorData "blue" = .ok 2 ∧
    Map.at colorData "purple" = .error (notFoundMsg "purple") := by
  refine ⟨?_, mapAt_eq_error_of_no_match data key, rfl, rfl, rfl⟩
  rintro pre kv post rfl hk hpre
  rw [mapAt_append_of_no_match pre _ key hpre]
  simp [Map.at, hk]

/-- Witness for C1 at a concrete table: the key `"b"` occurs twice and the
scan returns the first value; the key `"purple"` is missing from
`colorData` and the lookup fails with the error carrying it. -/
theorem c1_witness :
    Map.at [("b", (7 : Int)), ("a", 1), ("b", 2)] "b" = .ok 7 ∧
    Map.at colorData "purple" = .error (notFoundMsg "purple") := by
  constructor
  · exact (c1_map_at_scans_in_insertion_order
      [("b", (7 : Int)), ("a", 1), ("b", 2)] "b").1
      [] ("b", 7) [("a", 1), ("b", 2)] rfl rfl (by simp)
  · exact (c1_map_at_scans_in_insertion_order colorData "purple").2.1
      (by decide)

/-! Subsection: Lemmas about `DynamicArray::operator[]` -/

/-- C2: on a buffer of size `n`, indexed access succeeds and returns element
`i` when `i ∈ [0, n)`, and raises the range error naming the invalid index
and the size when `i` is outside `[0, n)` (including negative `i`).
On a size-5 container, index 5 fails and index 4 succeeds.
The hypotheses pin `idx` to the range of a 32-bit `int` (its C++ type) and
the size below `2^63` (any allocatable `std::size_t` count). -/
theorem c2_array_index_bounds_checked (buf : List T) (idx : Int)
    (hrange : IntRange idx) (hsize : buf.length < 9223372036854775808) :
    (∀ (_ : 0 ≤ idx) (hlt : idx < buf.length),
        arrayIndex buf idx = .ok (buf.get ⟨idx.toNat, by omega⟩)) ∧
    ((idx < 0 ∨ (buf.length : Int) ≤ idx) →
        arrayIndex buf idx = .error (invalidIndexMsg idx buf.length)) ∧
    arrayIndex ([10, 20, 30, 40, 50] : List Int) 5
      = .error (invalidIndexMsg 5 5) ∧
    arrayIndex ([10, 20, 30, 40, 50] : List Int) 4 = .ok 50 := by
  obtain ⟨hlo, hhi⟩ := hrange
  refine ⟨?_, ?_, rfl, rfl⟩
  · intro h0 hlt
    have ht : toSizeT idx = idx.toNat := by unfold toSizeT; omega
    unfold arrayIndex
    rw [dif_neg (by omega)]
    exact congrArg Except.ok (congrArg buf.get (Fin.ext ht))
  · intro h
    have hge : buf.length ≤ toSizeT idx := by
      unfold toSizeT; rcases h with h | h <;> omega
    unfold arrayIndex
    rw [dif_pos hge]

/-- Witness for C2 on a size-5 buffer: index 4 succeeds with the last
element, index 5 and index -1 fail with the range error. -/
theorem c2_witness :
    arrayIndex ([10, 20, 30, 40, 50] : List Int) 4 = .ok 50 ∧
    arrayIndex ([10, 20, 30, 40, 50] : List Int) 5
      = .error (invalidIndexMsg 5 5) ∧
    arrayIndex ([10, 20, 30, 40, 50] : List Int) (-1)
      = .error (invalidIndexMsg (-1) 5) := by
  refine ⟨?_, ?_, ?_⟩
  · exact (c2_array_index_bounds_checked [10, 20, 30, 40, 50] 4
      (by constructor <;> omega) (by decide)).1 (by omega) (by decide)
  · exact (c2_array_index_bounds_checked [10, 20, 30, 40, 50] 5
      (by constructor <;> omega) (by decide)).2.1 (by decide)
  · exact (c2_array_index_bounds_checked [10, 20, 30, 40, 50] (-1)
      (by constructor <;> omega) (by decide)).2.1 (by omega)

/-! Subsection: Heap lemmas -/

/-- A successful lookup is a heap entry. -/
theorem lookupBlock_mem {heap : List (Nat × List (Option T))} {a : Nat}
    {c : List (Option T)} (h : lookupBlock heap a = some c) :
    (a, c) ∈ heap := by
  induction heap with
  | nil => simp [lookupBlock] at h
  | cons e rest ih =>
      obtain ⟨b, cc⟩ := e
      by_cases hb : b = a
      · subst hb
        rw [lookupBlock, if_pos rfl] at h
        cases h
        exact List.mem_cons_self _ _
      · rw [lookupBlock, if_neg hb] at h
        exact List.mem_cons_of_mem _ (ih h)

/-- Under the memory invariant, a live address is below the counter. -/
theorem lookupBlock_lt_next {m : Mem T} (hinv : MemInv m) {a : Nat}
    {c : List (Option T)} (h : lookupBlock m.heap a = some c) :
    a < m.next :=
  hinv (a, c) (lookupBlock_mem h)

/-- Writing one block leaves the others readable unchanged. -/
theorem lookupBlock_writeBlock_ne {heap : List (Nat × List (Option T))}
    {a b : Nat} (hne : b ≠ a) (c' : List (Option T)) :
    lookupBlock (writeBlock heap a c') b = lookupBlock heap b := by
  induction heap with
  | nil => rfl
  | cons e rest ih =>
      obtain ⟨d, cc⟩ := e
      by_cases hd : d = a
      · subst hd
        rw [writeBlock, if_pos rfl, lookupBlock, lookupBlock,
          if_neg (fun h => hne h.symm), if_neg (fun h => hne h.symm)]
      · rw [writeBlock, if_neg hd, lookupBlock, lookupBlock, ih]

/-- Writing one cell leaves the other blocks readable unchanged. -/
theorem lookupBlock_writeCell_ne {heap : List (Nat × List (Option T))}
    {a b : Nat} (hne : b ≠ a) (i : Nat) (v : T) :
    lookupBlock (writeCell heap a i v) b = lookupBlock heap b := by
  induction heap with
  | nil => rfl
  | cons e rest ih =>
      obtain ⟨d, cc⟩ := e
      by_cases hd : d = a
      · subst hd
        rw [writeCell, if_pos rfl, lookupBlock, lookupBlock,
          if_neg (fun h => hne h.symm), if_neg (fun h => hne h.symm)]
      · rw [writeCell, if_neg hd, lookupBlock, lookupBlock, ih]

/-- Removing one block leaves the others readable unchanged. -/
theorem lookupBlock_removeBlock_ne {heap : List (Nat × List (Option T))}
    {a b : Nat} (hne : b ≠ a) :
    lookupBlock (removeBlock heap a) b = lookupBlock heap b := by
  induction heap with
  | nil => rfl
  | cons e rest ih =>
      obtain ⟨d, cc⟩ := e
      by_cases hd : d = a
      · subst hd
        rw [removeBlock, if_pos rfl, lookupBlock,
          if_neg (fun h => hne h.symm), ih]
      · rw [removeBlock, if_neg hd, lookupBlock, lookupBlock, ih]

/-- Deallocation does not advance the allocation counter. -/
theorem Mem.free_next (m : Mem T) (p : Option Nat) :
    (m.free p).next = m.next := by
  cases p with
  | none => rfl
  | some a => cases hl : lookupBlock m.heap a <;> simp [Mem.free, hl]

/-- Deallocating through `p` leaves any other address readable unchanged. -/
theorem Mem.free_lookup_ne (m : Mem T) {p : Option Nat} {b : Nat}
    (h : p ≠ some b) :
    lookupBlock (m.free p).heap b = lookupBlock m.heap b := by
  cases p with
  | none => rfl
  | some a =>
      have hab : b ≠ a := fun hba => h (by rw [hba])
      cases hl : lookupBlock m.heap a
      · simp [Mem.free, hl]
      · simp [Mem.free, hl, lookupBlock_removeBlock_ne hab]

/-- C3 (code bug): the claim requires every move — construction **and**
assignment — to leave the source with size 0 and a null pointer.
Move-construction does (its third component is literally `⟨0, none⟩`), but
in the concrete scenario `b = std::move(a)` the moved-from `a` ends with
size 0 and `values_` still holding address 0, which has been freed: the
pointer dangles instead of being null. -/
theorem c3_moved_from_source_state :
    (∀ (m : Mem Int) (other : DynamicArray),
        (moveCtor m other).2.2 = ⟨0, none⟩) ∧
    exMoveAssigned.2.2.size = 0 ∧
    exMoveAssigned.2.2.values = some 0 ∧
    exMoveAssigned.2.2.values ≠ none ∧
    0 ∈ exMoveAssigned.1.freed := by
  exact ⟨fun m other => rfl, rfl, rfl, by decide, by decide⟩

/-- C4 (code bug): in the scenario `a{1,2,3,4,5}; b(1); b = std::move(a);`
each of the two original buffers has been released exactly once so far
(`freed = [0, 1]`, no double free yet), but destroying the moved-from `a`
releases buffer 0 a second time — the destructor's null check does not
help because `operator=(DynamicArray &&)` never nulled `a.values_`. -/
theorem c4_double_free_after_move_assign :
    exMoveAssigned.1.freed = [0, 1] ∧
    exMoveAssigned.1.doubleFree = false ∧
    exAfterDtorA.doubleFree = true := by
  exact ⟨rfl, rfl, rfl⟩

/-- C5: copy-construction deep-copies: the copy has the source's size and
element values, lives at a fresh address distinct from the source's
buffer, and writing any element of the copy leaves the source's buffer
unchanged (and vice versa). -/
theorem c5_copy_ctor_is_deep_copy {T : Type} [Inhabited T] {m : Mem T}
    {src : DynamicArray} {a : Nat} {c : List (Option T)}
    (hinv : MemInv m) (hsrc : src.values = some a)
    (hblk : lookupBlock m.heap a = some c) (hlen : c.length = src.size) :
    (copyCtor m src).2.size = src.size ∧
    (copyCtor m src).2.values = some m.next ∧
    src.values ≠ (copyCtor m src).2.values ∧
    contentsOf (copyCtor m src).1 (copyCtor m src).2 = some c ∧
    contentsOf (copyCtor m src).1 src = some c ∧
    (∀ i v, contentsOf (writeElem (copyCtor m src).1 src i v)
        (copyCtor m src).2 = some c) ∧
    (∀ i v, contentsOf (writeElem (copyCtor m src).1 (copyCtor m src).2 i v)
        src = some c) := by
  have hlt : a < m.next := lookupBlock_lt_next hinv hblk
  have hne : m.next ≠ a := by omega
  have hread : readBlock
      ((m.next, List.replicate src.size (some (default : T))) :: m.heap)
      (some a) src.size = c := by
    rw [← hlen]
    simp [readBlock, lookupBlock, if_neg hne, hblk]
  refine ⟨rfl, rfl, ?_, ?_, ?_, ?_, ?_⟩
  · rw [hsrc]; simp [copyCtor, ctorSize, Mem.alloc]; omega
  · simp only [copyCtor, ctorSize, Mem.alloc, writeArr, contentsOf, hsrc,
      hread]
    simp [writeBlock, lookupBlock]
  · simp only [copyCtor, ctorSize, Mem.alloc, writeArr, contentsOf, hread,
      hsrc]
    simp [writeBlock, lookupBlock, if_neg hne, hblk]
  · intro i v
    simp only [copyCtor, ctorSize, Mem.alloc, writeArr, writeElem,
      contentsOf, hread, hsrc]
    simp [writeBlock, writeCell, lookupBlock, if_neg hne]
  · intro i v
    simp only [copyCtor, ctorSize, Mem.alloc, writeArr, writeElem,
      contentsOf, hread, hsrc]
    simp [writeBlock, writeCell, lookupBlock, if_neg hne, hblk]

/-- Reading the head block of the heap. -/
theorem lookupBlock_cons_eq (b : Nat) (c : List (Option T))
    (heap : List (Nat × List (Option T))) :
    lookupBlock ((b, c) :: heap) b = some c := by
  rw [lookupBlock, if_pos rfl]

/-- Reading past a head block with a different address. -/
theorem lookupBlock_cons_ne {b a : Nat} (hne : b ≠ a)
    (c : List (Option T)) (heap : List (Nat × List (Option T))) :
    lookupBlock ((b, c) :: heap) a = lookupBlock heap a := by
  rw [lookupBlock, if_neg hne]

/-- Reading a live block of exactly the requested length gives its
contents. -/
theorem readBlock_exact {heap : List (Nat × List (Option T))} {a : Nat}
    {c : List (Option T)} {n : Nat}
    (hblk : lookupBlock heap a = some c) (hlen : c.length = n) :
    readBlock heap (some a) n = c := by
  subst hlen
  simp [readBlock, hblk]

/-- Witness for C5: copying `{1,2,3}` yields a buffer holding `1, 2, 3`,
and writing `99` into cell 0 of the copy leaves the original's buffer at
`[1, 2, 3]`. -/
theorem c5_witness :
    contentsOf (copyCtor exArr123.1 exArr123.2).1
        (copyCtor exArr123.1 exArr123.2).2
      = some [some 1, some 2, some 3] ∧
    contentsOf (writeElem (copyCtor exArr123.1 exArr123.2).1
        (copyCtor exArr123.1 exArr123.2).2 0 99) exArr123.2
      = some [some 1, some 2, some 3] := by
  have h := @c5_copy_ctor_is_deep_copy Int _ exArr123.1 exArr123.2 0
      [some 1, some 2, some 3] (by unfold MemInv; decide) rfl rfl rfl
  exact ⟨h.2.2.2.1, h.2.2.2.2.2.2 0 99⟩

/-- C10: copy-assignment deep-copies only for distinct objects: with
`this != &other` the destination gets the source's size and element values
in a fresh buffer distinct from (and independent of) the source's; but the
operator deletes the destination's buffer before copying with no
self-assignment check, so self-assignment `a = a` wipes the contents — on
`{1,2,3}` the buffer ends all-indeterminate instead of `[1, 2, 3]`. -/
theorem c10_copy_assign_needs_distinct_objects {T : Type} [Inhabited T]
    {m : Mem T} {dest src : DynamicArray} {a : Nat} {c : List (Option T)}
    (hinv : MemInv m) (hsrc : src.values = some a)
    (hblk : lookupBlock m.heap a = some c) (hlen : c.length = src.size)
    (hdistinct : dest.values ≠ src.values) :
    ((copyAssign m dest src).2.size = src.size ∧
     contentsOf (copyAssign m dest src).1 (copyAssign m dest src).2
       = some c ∧
     contentsOf (copyAssign m dest src).1 src = some c ∧
     (copyAssign m dest src).2.values ≠ src.values ∧
     (∀ i v, contentsOf (writeElem (copyAssign m dest src).1
         (copyAssign m dest src).2 i v) src = some c)) ∧
    contentsOf exArr123.1 exArr123.2 = some [some 1, some 2, some 3] ∧
    contentsOf exSelfAssigned.1 exSelfAssigned.2
      = some [none, none, none] := by
  have hlt : a < m.next := lookupBlock_lt_next hinv hblk
  have hd' : dest.values ≠ some a := by rw [hsrc] at hdistinct; exact hdistinct
  have hlook1 : lookupBlock (m.free dest.values).heap a = some c := by
    rw [Mem.free_lookup_ne m hd']; exact hblk
  have hnext1 : (m.free dest.values).next = m.next :=
    Mem.free_next m dest.values
  have hne1 : (m.free dest.values).next ≠ a := by rw [hnext1]; omega
  refine ⟨⟨rfl, ?_, ?_, ?_, ?_⟩, rfl, rfl⟩
  · simp only [copyAssign, Mem.alloc, writeArr, contentsOf, hsrc]
    rw [readBlock_exact (by rw [lookupBlock_cons_ne hne1]; exact hlook1) hlen,
      writeBlock, if_pos rfl, lookupBlock_cons_eq]
  · simp only [copyAssign, Mem.alloc, writeArr, contentsOf, hsrc]
    rw [readBlock_exact (by rw [lookupBlock_cons_ne hne1]; exact hlook1) hlen,
      writeBlock, if_pos rfl, lookupBlock_cons_ne hne1]
    exact hlook1
  · simp only [copyAssign, Mem.alloc, hsrc]
    intro h
    exact hne1 (Option.some.inj h)
  · intro i v
    simp only [copyAssign, Mem.alloc, writeArr, writeElem, contentsOf, hsrc]
    rw [readBlock_exact (by rw [lookupBlock_cons_ne hne1]; exact hlook1) hlen,
      writeBlock, if_pos rfl, writeCell, if_pos rfl,
      lookupBlock_cons_ne hne1]
    exact hlook1

/-- Witness for C10 on `a{1,2,3,4,5}; b(1); b = a;`: `b` ends with `a`'s
five values and `a`'s buffer still holds them. -/
theorem c10_witness :
    contentsOf (copyAssign exInit.1 exInit.2.2 exInit.2.1).1
        (copyAssign exInit.1 exInit.2.2 exInit.2.1).2
      = some [some 1, some 2, some 3, some 4, some 5] ∧
    contentsOf (copyAssign exInit.1 exInit.2.2 exInit.2.1).1 exInit.2.1
      = some [some 1, some 2, some 3, some 4, some 5] := by
  have h := @c10_copy_assign_needs_distinct_objects Int _ exInit.1
      exInit.2.2 exInit.2.1 0 [some 1, some 2, some 3, some 4, some 5]
      (by unfold MemInv; decide) rfl rfl rfl (by decide)
  exact ⟨h.1.2.1, h.1.2.2.1⟩

/-- C6: cursor arithmetic over a buffer of size `N` based at `base`:
`end - begin == N`; `(begin + k)[0] == *(begin + k)` for `k ∈ [0, N)`;
decrementing `end` `N` times reaches `begin`; and the difference of two
cursors over the buffer is the signed element distance between their
positions. -/
theorem c6_iterator_arithmetic (base : Int) (N : Nat) (mem : Int → T) :
    (endIt base N).diff (beginIt base) = N ∧
    (∀ k : Nat, k < N →
        ((beginIt base).add k).subscript mem 0
          = ((beginIt base).add k).deref mem) ∧
    ArrayIterator.dec^[N] (endIt base N) = beginIt base ∧
    (∀ i j : Int,
        ((beginIt base).add i).diff ((beginIt base).add j) = i - j) := by
  refine ⟨?_, ?_, ?_, ?_⟩
  · simp [endIt, beginIt, ArrayIterator.diff]
  · intro k _
    simp [beginIt, ArrayIterator.add, ArrayIterator.subscript,
      ArrayIterator.deref]
  · induction N with
    | zero => simp [endIt, beginIt]
    | succ n ih =>
        rw [Function.iterate_succ_apply]
        have hstep : (endIt base (n + 1)).dec = endIt base n := by
          simp only [endIt, ArrayIterator.dec]
          congr 1
          push_cast
          ring
        rw [hstep, ih]
  · intro i j
    simp [beginIt, ArrayIterator.add, ArrayIterator.diff]

/-- Witness for C6 over a size-5 buffer based at address 100, with the
memory view returning the address itself. -/
theorem c6_witness :
    (endIt 100 5).diff (beginIt 100) = 5 ∧
    ((beginIt 100).add 2).subscript (fun i => i) 0
      = ((beginIt 100).add 2).deref (fun i => i) := by
  have h := c6_iterator_arithmetic 100 5 (fun i : Int => i)
  exact ⟨h.1, h.2.1 2 (by omega)⟩

/-! Subsection: Lemmas about `reduce` and `inclusive_scan` -/

/-- A pairwise pass preserves left folds of associative operations. -/
theorem foldl_reducePairs {α : Type} (op : α → α → α)
    (hassoc : ∀ a b c, op (op a b) c = op a (op b c)) :
    ∀ (l : List α) (e : α),
      (reducePairs op l).foldl op e = l.foldl op e
  | [], _ => rfl
  | [_], _ => rfl
  | a :: b :: rest, e => by
      rw [reducePairs, List.foldl_cons,
        foldl_reducePairs op hassoc rest (op e (op a b)),
        List.foldl_cons, List.foldl_cons, hassoc]

/-- All pairwise passes preserve left folds of associative operations. -/
theorem foldl_reduceRounds {α : Type} (op : α → α → α)
    (hassoc : ∀ a b c, op (op a b) c = op a (op b c)) :
    ∀ (n : Nat) (l : List α) (e : α),
      (reduceRounds op n l).foldl op e = l.foldl op e
  | 0, _, _ => rfl
  | n + 1, l, e => by
      rw [reduceRounds, foldl_reduceRounds op hassoc n (reducePairs op l) e,
        foldl_reducePairs op hassoc l e]

/-- A pairwise pass halves the length, rounding up. -/
theorem reducePairs_length {α : Type} (op : α → α → α) :
    ∀ l : List α, (reducePairs op l).length = (l.length + 1) / 2
  | [] => by simp [reducePairs]
  | [_] => by simp [reducePairs]
  | _ :: _ :: rest => by
      rw [reducePairs, List.length_cons, reducePairs_length op rest]
      simp only [List.length_cons]
      omega

/-- Enough pairwise passes shrink a nonempty list to a single element. -/
theorem reduceRounds_length_one {α : Type} (op : α → α → α) :
    ∀ (n : Nat) (l : List α), l ≠ [] → l.length ≤ 2 ^ n →
      (reduceRounds op n l).length = 1 := by
  intro n
  induction n with
  | zero =>
      intro l hne hlen
      have : l.length ≠ 0 := fun h => hne (List.eq_nil_of_length_eq_zero h)
      simpa [reduceRounds] using by omega
  | succ m ih =>
      intro l hne hlen
      rw [reduceRounds]
      have hlp := reducePairs_length op l
      have hne' : reducePairs op l ≠ [] := by
        intro h
        have : (reducePairs op l).length = 0 := by rw [h]; rfl
        have : l.length ≠ 0 := fun hh => hne (List.eq_nil_of_length_eq_zero hh)
        omega
      refine ih (reducePairs op l) hne' ?_
      have h2 : (2 : Nat) ^ (m + 1) = 2 ^ m * 2 := by ring
      omega

/-- For an associative operation with left identity `idv`, `reduce`
coincides with the sequential left fold seeded with `idv`. -/
theorem reduce_eq_foldl {α : Type} (op : α → α → α) (idv : α)
    (hassoc : ∀ a b c, op (op a b) c = op a (op b c))
    (hid : ∀ a, op idv a = a) (l : List α) :
    reduce op idv l = l.foldl op idv := by
  have hne : (idv :: l) ≠ [] := by simp
  have hlen : (idv :: l).length ≤ 2 ^ l.length := by
    simp only [List.length_cons]
    exact Nat.lt_two_pow l.length
  have h1 := reduceRounds_length_one op l.length (idv :: l) hne hlen
  obtain ⟨x, hx⟩ : ∃ x, reduceRounds op l.length (idv :: l) = [x] := by
    match hh : reduceRounds op l.length (idv :: l) with
    | [] => rw [hh] at h1; simp at h1
    | [x] => exact ⟨x, rfl⟩
    | x :: y :: t => rw [hh] at h1; simp at h1
  have hf := foldl_reduceRounds op hassoc l.length (idv :: l) idv
  rw [hx] at hf
  have hx' : x = (idv :: l).foldl op idv := by
    rw [← hf, List.foldl_cons, List.foldl_nil, hid]
  unfold reduce
  rw [hx]
  show x = l.foldl op idv
  rw [hx', List.foldl_cons, hid]

/-- C7: for every sequence and associative combining operation with
identity, `reduce` equals the manual sequential left fold (`accumulate`);
in particular summing `[1,2,3,4,5]` gives 15 both ways, matching the
closed-form `sum_gauss(1, 5, 1)`. -/
theorem c7_reduce_equals_accumulate {α : Type} (op : α → α → α) (idv : α)
    (hassoc : ∀ a b c, op (op a b) c = op a (op b c))
    (hid : ∀ a, op idv a = a) (l : List α) :
    reduce op idv l = accumulate op idv l ∧
    reduce (· + ·) (0 : Int) v1 = 15 ∧
    accumulate (· + ·) (0 : Int) v1 = 15 ∧
    sum_gauss 1 5 1 = 15 := by
  refine ⟨?_, rfl, rfl, rfl⟩
  rw [reduce_eq_foldl op idv hassoc hid l]
  rfl

/-- Witness for C7: integer addition with identity 0 on `v1`. -/
theorem c7_witness :
    reduce (· + ·) (0 : Int) v1 = accumulate (· + ·) (0 : Int) v1 ∧
    sum_gauss 1 5 1 = 15 := by
  have h := c7_reduce_equals_accumulate (· + ·) (0 : Int)
      (fun a b c => add_assoc a b c) (fun a => zero_add a) v1
  exact ⟨h.1, h.2.2.2⟩

/-- The helper `scanGo` emits one output per input element. -/
theorem scanGo_length {α : Type} (op : α → α → α) :
    ∀ (l : List α) (acc : α), (scanGo op acc l).length = l.length
  | [], _ => rfl
  | x :: xs, acc => by
      rw [scanGo, List.length_cons, List.length_cons,
        scanGo_length op xs (op acc x)]

/-- Position `i` of `scanGo op acc l` folds `acc` through the first `i + 1`
elements. -/
theorem scanGo_getElem? {α : Type} (op : α → α → α) :
    ∀ (l : List α) (acc : α) (i : Nat), i < l.length →
      (scanGo op acc l)[i]? = some ((l.take (i + 1)).foldl op acc)
  | [], _, i, h => by simp at h
  | x :: xs, acc, 0, _ => by simp [scanGo]
  | x :: xs, acc, i + 1, h => by
      rw [scanGo]
      have hi : i < xs.length := by
        simp only [List.length_cons] at h
        omega
      simp only [List.getElem?_cons_succ, List.take_succ_cons,
        List.foldl_cons]
      exact scanGo_getElem? op xs (op acc x) i hi

/-- C8: `inclusive_scan` keeps the input's length; every position `i` of
the output holds the cumulative combination of input elements `0..i`
inclusive; on `[1,2,3,4,5]` with addition it yields `[1,3,6,10,15]`; and
its last element equals `reduce` over the whole sequence. -/
theorem c8_inclusive_scan_cumulative {α : Type} (op : α → α → α) (idv : α)
    (hassoc : ∀ a b c, op (op a b) c = op a (op b c))
    (hid : ∀ a, op idv a = a) (l : List α) :
    (inclusive_scan op l).length = l.length ∧
    (∀ i, i < l.length →
        (inclusive_scan op l)[i]? = some ((l.take (i + 1)).foldl op idv)) ∧
    inclusive_scan (· + ·) v1 = [1, 3, 6, 10, 15] ∧
    (l ≠ [] → (inclusive_scan op l).getLast? = some (reduce op idv l)) := by
  have hlen : (inclusive_scan op l).length = l.length := by
    cases l with
    | nil => rfl
    | cons x xs =>
        rw [inclusive_scan, List.length_cons, List.length_cons,
          scanGo_length op xs x]
  have hpos : ∀ i, i < l.length →
      (inclusive_scan op l)[i]? = some ((l.take (i + 1)).foldl op idv) := by
    intro i hi
    cases l with
    | nil => simp at hi
    | cons x xs =>
        cases i with
        | zero => simp [inclusive_scan, hid]
        | succ j =>
            have hj : j < xs.length := by
              simp only [List.length_cons] at hi
              omega
            rw [inclusive_scan]
            simp only [List.getElem?_cons_succ, List.take_succ_cons,
              List.foldl_cons, hid]
            exact scanGo_getElem? op xs x j hj
  refine ⟨hlen, hpos, rfl, ?_⟩
  intro hne
  have hlpos : 0 < l.length := List.length_pos.mpr hne
  rw [List.getLast?_eq_getElem?, hlen,
    hpos (l.length - 1) (by omega)]
  rw [show l.length - 1 + 1 = l.length from by omega, List.take_length,
    reduce_eq_foldl op idv hassoc hid l]

/-- Witness for C8: integer addition with identity 0 on `v1`; the last
scan element equals the reduction, which is 15. -/
theorem c8_witness :
    inclusive_scan (· + ·) v1 = [1, 3, 6, 10, 15] ∧
    (inclusive_scan (· + ·) v1).getLast? = some (reduce (· + ·) 0 v1) ∧
    reduce (· + ·) (0 : Int) v1 = 15 := by
  have h := c8_inclusive_scan_cumulative (· + ·) (0 : Int)
      (fun a b c => add_assoc a b c) (fun a => zero_add a) v1
  exact ⟨h.2.2.1, h.2.2.2 (by simp [v1]), rfl⟩

/-! Subsection: Lemmas about `dedupConsec` -/

/-- Collapsing a nonempty list keeps its first element in front. -/
theorem dedupConsec_head {α : Type} [DecidableEq α] :
    ∀ (x : α) (l : List α), ∃ t, dedupConsec (x :: l) = x :: t
  | _, [] => ⟨[], rfl⟩
  | x, b :: rest => by
      by_cases h : x = b
      · obtain ⟨t, ht⟩ := dedupConsec_head b rest
        rw [dedupConsec, if_pos h, ht, h]
        exact ⟨t, rfl⟩
      · rw [dedupConsec, if_neg h]
        exact ⟨dedupConsec (b :: rest), rfl⟩

/-- The collapsed list has no two adjacent equal elements: `unique` removes
exactly the consecutive duplicates. -/
theorem dedupConsec_chain' {α : Type} [DecidableEq α] :
    ∀ l : List α, List.Chain' (fun a b => a ≠ b) (dedupConsec l)
  | [] => List.chain'_nil
  | [a] => by simp [dedupConsec]
  | a :: b :: rest => by
      by_cases h : a = b
      · rw [dedupConsec, if_pos h]
        exact dedupConsec_chain' (b :: rest)
      · rw [dedupConsec, if_neg h]
        obtain ⟨t, ht⟩ := dedupConsec_head b rest
        have hc := dedupConsec_chain' (b :: rest)
        rw [ht] at hc
        rw [ht]
        exact List.Chain'.cons h hc

/-- Collapsing the doubled run `[s,s,s+1,s+1,...]` yields the strictly
increasing run `[s, s+1, ...]`. -/
theorem dedupConsec_pairDupFrom :
    ∀ (n s : Nat), dedupConsec (pairDupFrom s n) = List.range' s n := by
  intro n
  induction n with
  | zero => intro s; rfl
  | succ m ih =>
      intro s
      show dedupConsec (s :: s :: pairDupFrom (s + 1) m) = List.range' s (m + 1)
      rw [dedupConsec, if_pos rfl]
      cases m with
      | zero => rfl
      | succ k =>
          show dedupConsec
              (s :: (s + 1) :: (s + 1) :: pairDupFrom (s + 1 + 1) k)
            = List.range' s (k + 1 + 1)
          rw [dedupConsec, if_neg (by omega)]
          show s :: dedupConsec (pairDupFrom (s + 1) (k + 1))
            = List.range' s (k + 1 + 1)
          rw [List.range'_succ, ih (s + 1)]

/-- Each doubled element contributes twice its single count to any
predicate's count. -/
theorem count_if_pairDupFrom (p : Nat → Bool) :
    ∀ (n s : Nat),
      count_if p (pairDupFrom s n) = 2 * count_if p (List.range' s n) := by
  intro n
  induction n with
  | zero => intro s; rfl
  | succ m ih =>
      intro s
      have ihs := ih (s + 1)
      unfold count_if at ihs ⊢
      show (List.filter p (s :: s :: pairDupFrom (s + 1) m)).length
        = 2 * (List.filter p (List.range' s (m + 1))).length
      rw [List.range'_succ, List.filter_cons, List.filter_cons,
        List.filter_cons]
      cases hp : p s <;> simp [hp] <;> omega

/-- C9: `unique` removes consecutive duplicates only (the collapsed list
has no two adjacent equal elements); collapsing the sequence in which each
value of `0..n-1` appears exactly twice consecutively yields the strictly
increasing `[0, 1, ..., n-1]`; and every predicate class — in particular
each parity class — counts exactly twice as many elements before
collapsing as after, shown concretely for the source's `n = 20`. -/
theorem c9_unique_collapses_consecutive_duplicates :
    (∀ l : List Nat, List.Chain' (fun a b => a ≠ b) (dedupConsec l)) ∧
    (∀ n, dedupConsec (pairDup n) = List.range n) ∧
    (∀ (n : Nat) (p : Nat → Bool),
        count_if p (pairDup n) = 2 * count_if p (dedupConsec (pairDup n))) ∧
    dedupConsec (pairDup 20) = List.range 20 ∧
    count_if is_even (pairDup 20) = 2 * count_if is_even (List.range 20) ∧
    count_if (fun e => !(is_even e)) (pairDup 20)
      = 2 * count_if (fun e => !(is_even e)) (List.range 20) := by
  have hdd : ∀ n, dedupConsec (pairDup n) = List.range n := by
    intro n
    rw [pairDup, dedupConsec_pairDupFrom n 0]
    exact (List.range_eq_range' n).symm
  have hcnt : ∀ (n : Nat) (p : Nat → Bool),
      count_if p (pairDup n) = 2 * count_if p (dedupConsec (pairDup n)) := by
    intro n p
    rw [hdd n, pairDup, count_if_pairDupFrom p n 0, List.range_eq_range']
  exact ⟨fun l => dedupConsec_chain' l, hdd, hcnt, hdd 20,
    by decide, by decide⟩

end CppSandbox
